import Mathlib

/-!
Verification of the SERP clustering core (src/cluster.ts).

Strings of the program are modelled as lists of characters (`Str`), JS `Map`
and `Set` as insertion-ordered association lists and duplicate-free lists,
and JS floating-point division of small integer counts as exact rational
division.  Every definition mirrors the corresponding TypeScript function.
-/

abbrev Str := List Char

/-- A raw input row as handed to the loader: keyword, position, url fields. -/
structure Row where
  keyword : Str
  position : Str
  url : Str

/-- JS whitespace test for the characters relevant to `trim` / `parseInt`. -/
def isWs (c : Char) : Bool :=
  c = ' ' || c = '\t' || c = '\n' || c = '\r'

/-- Model of `String.prototype.trim`: drop whitespace at both ends. -/
def jsTrim (s : Str) : Str :=
  ((s.dropWhile isWs).reverse.dropWhile isWs).reverse

/-- Longest run of decimal digits at the front of a string. -/
def leadingDigits (s : Str) : Str := s.takeWhile Char.isDigit

/-- Value of a list of decimal digits. -/
def digitsToNat (ds : Str) : Nat :=
  ds.foldl (fun n c => 10 * n + (c.toNat - 48)) 0

/-- Model of `parseInt(s, 10)`: skip leading whitespace, optional sign,
then the longest run of digits; `none` models `NaN` (no digits found). -/
def jsParseInt (s : Str) : Option Int :=
  match s.dropWhile isWs with
  | '-' :: rest =>
      if (leadingDigits rest).isEmpty then none
      else some (-(digitsToNat (leadingDigits rest) : Int))
  | '+' :: rest =>
      if (leadingDigits rest).isEmpty then none
      else some (digitsToNat (leadingDigits rest))
  | t =>
      if (leadingDigits t).isEmpty then none
      else some (digitsToNat (leadingDigits t))

/-- `Map<string, string[]>` with insertion order: the SERP data. -/
abbrev SerpData := List (Str × List Str)

/-- Model of `serpData.get(kw)!.push(url)` preceded by `serpData.set(kw, [])`
when absent: append `url` to the entry of `kw`, creating it at the end. -/
def pushUrl (m : SerpData) (kw url : Str) : SerpData :=
  match m with
  | [] => [(kw, [url])]
  | (k, us) :: rest =>
      if k = kw then (k, us ++ [url]) :: rest else (k, us) :: pushUrl rest kw url

/-- One iteration of the row loop of `loadSerpData` (lines 54-66). -/
def loadStep (m : SerpData) (r : Row) : SerpData :=
  let keyword := jsTrim r.keyword
  let url := jsTrim r.url
  let position := (jsParseInt (jsTrim r.position)).getD 0
  if position ≤ 10 then pushUrl m keyword url else m

/-- Model of `loadSerpData` (lines 44-69), starting from the already-parsed
rows; the CSV layer option `trim: true` is reflected by trimming each field. -/
def loadSerpData (rows : List Row) : SerpData :=
  rows.foldl loadStep []

/-- Accumulator version of `new Set(list)`: keep first occurrences in order. -/
def firstDedupAux (seen : List Str) : List Str → List Str
  | [] => []
  | x :: xs =>
      if x ∈ seen then firstDedupAux seen xs
      else x :: firstDedupAux (x :: seen) xs

/-- Model of `new Set(list)` spread back to a list: first occurrences in
insertion order. -/
def firstDedup (l : List Str) : List Str := firstDedupAux [] l

/-- The `combinations` generator (lines 74-80): all pairs (i, j) with i < j,
in the generator's order. -/
def combinations {α : Type} : List α → List (α × α)
  | [] => []
  | x :: xs => xs.map (fun y => (x, y)) ++ combinations xs

/-- The `OverlapData` record (lines 11-15); the score is an exact rational. -/
structure OverlapData where
  sharedUrls : List Str
  count : Nat
  overlapScore : ℚ
deriving DecidableEq

/-- Insertion-ordered model of `Map<string, OverlapData>`. -/
abbrev OverlapMatrix := List (Str × OverlapData)

/-- Model of `serpData.get(kw)!` for keys known to be present (default `[]`). -/
def lookupSerp (m : SerpData) (kw : Str) : List Str :=
  ((m.find? (fun e => e.1 = kw)).map Prod.snd).getD []

/-- The template-literal key of line 97: the two keywords joined by `|`. -/
def joinPipe (a b : Str) : Str := a ++ '|' :: b

/-- Model of `Map.set`: replace the value of an existing key in place, else
append at the end. -/
def setEntry (m : OverlapMatrix) (k : Str) (v : OverlapData) : OverlapMatrix :=
  match m with
  | [] => [(k, v)]
  | (k2, v2) :: rest =>
      if k2 = k then (k, v) :: rest else (k2, v2) :: setEntry rest k v

/-- One iteration of the pair loop of `calculateUrlOverlap` (lines 89-104);
the score `sharedCount / Math.min(urls1.size, urls2.size)` is the exact
rational with that numerator and denominator. -/
def overlapStep (serpData : SerpData) (m : OverlapMatrix) (p : Str × Str) :
    OverlapMatrix :=
  let urls1 := firstDedup (lookupSerp serpData p.1)
  let urls2 := firstDedup (lookupSerp serpData p.2)
  let shared := urls1.filter (fun u => decide (u ∈ urls2))
  let sharedCount := shared.length
  if 0 < sharedCount then
    setEntry m (joinPipe p.1 p.2)
      ⟨shared, sharedCount, mkRat (sharedCount : Int) (urls1.length.min urls2.length)⟩
  else m

/-- Model of `calculateUrlOverlap` (lines 85-107). -/
def calculateUrlOverlap (serpData : SerpData) : OverlapMatrix :=
  (combinations (serpData.map Prod.fst)).foldl (overlapStep serpData) []

/-- Split a string at every occurrence of `sep`, JS `split` semantics. -/
def splitOnChar (sep : Char) : Str → List Str
  | [] => [[]]
  | c :: rest =>
      if c = sep then [] :: splitOnChar sep rest
      else
        match splitOnChar sep rest with
        | [] => [[c]]
        | p :: ps => (c :: p) :: ps

/-- Model of `Array.prototype.join` for a one-character separator. -/
def joinSep (sep : Char) : List Str → Str
  | [] => []
  | [p] => p
  | p :: q :: ps => p ++ sep :: joinSep sep (q :: ps)

/-- A JS `Set<string>` of cluster members, in insertion order. -/
abbrev Cluster := List Str

/-- Model of `Set.add`: append if not yet a member. -/
def addMem (c : Cluster) (x : Str) : Cluster :=
  if x ∈ c then c else c ++ [x]

/-- The scan of lines 138-144: index of the first cluster containing
`kw1` or `kw2`. -/
def findClusterIdx (clusters : List Cluster) (kw1 kw2 : Str) : Option Nat :=
  match clusters with
  | [] => none
  | c :: rest =>
      if kw1 ∈ c ∨ kw2 ∈ c then some 0
      else (findClusterIdx rest kw1 kw2).map (· + 1)

/-- The mutable state of the greedy loop: the cluster list and the
`assigned` set. -/
structure GreedyState where
  clusters : List Cluster
  assigned : List Str
deriving DecidableEq

/-- The body of the greedy loop for one map entry key (lines 135-156). -/
def processPair (st : GreedyState) (key : Str) : GreedyState :=
  let parts := splitOnChar '|' key
  let kw1 := parts.headD []
  let kw2 := parts.getD 1 []
  let clusters :=
    match findClusterIdx st.clusters kw1 kw2 with
    | some i => st.clusters.set i (addMem (addMem (st.clusters.getD i []) kw1) kw2)
    | none => st.clusters ++ [addMem [kw1] kw2]
  ⟨clusters, addMem (addMem st.assigned kw1) kw2⟩

/-- The greedy loop over the sorted entries with its `break` (lines 130-157). -/
def greedyLoop (minOverlap : Nat) : GreedyState → List (Str × OverlapData) → GreedyState
  | st, [] => st
  | st, (key, data) :: rest =>
      if data.count < minOverlap then st
      else greedyLoop minOverlap (processPair st key) rest

/-- Insert one entry into a list already sorted by count descending, before
the first entry of smaller-or-equal count: the unique stable placement. -/
def sortInsert (e : Str × OverlapData) :
    List (Str × OverlapData) → List (Str × OverlapData)
  | [] => [e]
  | h :: t =>
      if h.2.count ≤ e.2.count then e :: h :: t else h :: sortInsert e t

/-- The stable descending sort of line 125-127 (`Array.prototype.sort` is
stable, comparator `b.count - a.count`). -/
def sortPairs (m : OverlapMatrix) : OverlapMatrix :=
  m.foldr sortInsert []

/-- Model of `clusterKeywords` (lines 115-167). -/
def clusterKeywords (serpData : SerpData) (overlapMatrix : OverlapMatrix)
    (minOverlap : Nat) : List Cluster :=
  let keywords := serpData.map Prod.fst
  let st := greedyLoop minOverlap ⟨[], []⟩ (sortPairs overlapMatrix)
  st.clusters ++ (keywords.filter (fun kw => decide (kw ∉ st.assigned))).map (fun kw => [kw])

/-- The character class `[a-z0-9-]` of line 175, by codepoint:
`a`-`z` is 97-122, `0`-`9` is 48-57, `-` is 45. -/
def isSlugChar (c : Char) : Bool :=
  decide (97 ≤ c.toNat ∧ c.toNat ≤ 122) || decide (48 ≤ c.toNat ∧ c.toNat ≤ 57) ||
    decide (c.toNat = 45)

/-- Model of `toLowerCase` on the ASCII range (`A`-`Z` is 65-90); the design
assumes no locale-sensitive behavior beyond ASCII lowercase. -/
def jsToLower (c : Char) : Char :=
  if 65 ≤ c.toNat ∧ c.toNat ≤ 90 then Char.ofNat (c.toNat + 32) else c

/-- Model of `generateSlug` (lines 172-181): lowercase, spaces to hyphens,
strip characters outside the class, split on `-` keeping non-empty segments,
rejoin, truncate to 60. -/
def generateSlug (text : Str) : Str :=
  (joinSep '-'
    ((splitOnChar '-'
        (((text.map jsToLower).map (fun c => if c = ' ' then '-' else c)).filter
          isSlugChar)).filter
      (fun seg => decide (seg ≠ [])))).take 60

/-- The keyword pair written per row by `saveOverlapMatrix` (lines 274-276):
the first two components of splitting the map key on `|`. -/
def saveOverlapMatrixRows (m : OverlapMatrix) : List (Str × Str) :=
  m.map (fun e => ((splitOnChar '|' e.1).headD [], (splitOnChar '|' e.1).getD 1 []))

/-- Keyword `a` of the concrete scenarios. -/
def kwA : Str := ['a']

/-- Keyword `b` of the concrete scenarios. -/
def kwB : Str := ['b']

/-- Keyword `c` of the concrete scenarios. -/
def kwC : Str := ['c']

/-- Keyword `d` of the concrete scenarios. -/
def kwD : Str := ['d']

/-- One-character URL used by the concrete scenarios. -/
def urlOf (c : Char) : Str := [c]

/-- The 5 URLs shared by keywords `a`, `b`, `c` in the section-8 scenario. -/
def urlsShared : List Str :=
  [urlOf '1', urlOf '2', urlOf '3', urlOf '4', urlOf '5']

/-- Scenario of spec section 8: keywords `a`, `b`, `c` rank the same 5 URLs,
keyword `d` ranks 5 disjoint URLs. -/
def serpABCD : SerpData :=
  [ (kwA, urlsShared)
  , (kwB, urlsShared)
  , (kwC, urlsShared)
  , (kwD, [urlOf '6', urlOf '7', urlOf '8', urlOf '9', urlOf '0']) ]

/-- A chain scenario: overlap counts are `a`-`b`: 5, `c`-`d`: 4, `b`-`c`: 3,
so the pair `b`-`c` is processed after clusters for `a`-`b` and `c`-`d`
already exist. -/
def serpChain : SerpData :=
  [ (kwA, [urlOf '1', urlOf '2', urlOf '3', urlOf '4', urlOf '5'])
  , (kwB, [urlOf '1', urlOf '2', urlOf '3', urlOf '4', urlOf '5', urlOf '6',
      urlOf '7', urlOf '8'])
  , (kwC, [urlOf '6', urlOf '7', urlOf '8', urlOf 'p', urlOf 'q', urlOf 'r',
      urlOf 's'])
  , (kwD, [urlOf 'p', urlOf 'q', urlOf 'r', urlOf 's']) ]

/-- A map whose first keyword contains the separator character `|`. -/
def serpWithPipe : SerpData :=
  [ (['a', '|', 'b'], [urlOf '1', urlOf '2', urlOf '3'])
  , (kwC, [urlOf '1', urlOf '2', urlOf '3']) ]

/-- Input whose slug is truncated right after a hyphen: 59 `a`s, `-`, `b`. -/
def slugCexA : Str := List.replicate 59 'a' ++ ['-', 'b']

/-- Input whose slug is truncated right after a hyphen: 59 `x`s, `-`, `y`, `z`. -/
def slugCexB : Str := List.replicate 59 'x' ++ ['-', 'y', 'z']

open List

theorem splitOnChar_ne_nil (sep : Char) (s : Str) : splitOnChar sep s ≠ [] := by
  cases s with
  | nil => simp [splitOnChar]
  | cons c rest =>
    simp only [splitOnChar]
    split
    · simp
    · split <;> simp

theorem splitOnChar_not_mem {sep : Char} {s : Str} (h : sep ∉ s) :
    splitOnChar sep s = [s] := by
  induction s with
  | nil => rfl
  | cons c rest ih =>
    have hc : ¬ c = sep := by
      intro e; exact h (e ▸ mem_cons_self c rest)
    have hr : sep ∉ rest := fun m => h (mem_cons_of_mem _ m)
    simp only [splitOnChar, if_neg hc, ih hr]

theorem splitOnChar_append {sep : Char} {a b : Str} (h : sep ∉ a) :
    splitOnChar sep (a ++ sep :: b) = a :: splitOnChar sep b := by
  induction a with
  | nil => simp [splitOnChar]
  | cons c cs ih =>
    have hc : ¬ c = sep := by
      intro e; exact h (e ▸ mem_cons_self c cs)
    have hcs : sep ∉ cs := fun m => h (mem_cons_of_mem _ m)
    simp only [cons_append, splitOnChar, List.append_eq, if_neg hc, ih hcs]

theorem joinSep_splitOnChar (sep : Char) (s : Str) :
    joinSep sep (splitOnChar sep s) = s := by
  induction s with
  | nil => rfl
  | cons c rest ih =>
    simp only [splitOnChar]
    by_cases hc : c = sep
    · rw [if_pos hc]
      cases hs : splitOnChar sep rest with
      | nil => exact absurd hs (splitOnChar_ne_nil sep rest)
      | cons p ps =>
        rw [hs] at ih
        simp only [joinSep, nil_append]
        rw [ih, hc]
    · rw [if_neg hc]
      cases hs : splitOnChar sep rest with
      | nil => exact absurd hs (splitOnChar_ne_nil sep rest)
      | cons p ps =>
        rw [hs] at ih
        cases ps with
        | nil => simp only [joinSep] at ih ⊢; rw [ih]
        | cons q ps2 =>
          simp only [joinSep, cons_append] at ih ⊢
          rw [ih]

theorem not_mem_of_mem_splitOnChar {sep : Char} {s p : Str}
    (hp : p ∈ splitOnChar sep s) : sep ∉ p := by
  induction s generalizing p with
  | nil =>
    simp only [splitOnChar, mem_singleton] at hp
    subst hp; simp
  | cons c rest ih =>
    simp only [splitOnChar] at hp
    by_cases hc : c = sep
    · rw [if_pos hc] at hp
      rcases mem_cons.mp hp with h | h
      · subst h; simp
      · exact ih h
    · rw [if_neg hc] at hp
      cases hs : splitOnChar sep rest with
      | nil => exact absurd hs (splitOnChar_ne_nil sep rest)
      | cons q ps =>
        rw [hs] at hp
        rcases mem_cons.mp hp with h | h
        · subst h
          intro hm
          rcases mem_cons.mp hm with h1 | h1
          · exact hc h1.symm
          · exact ih (hs ▸ mem_cons_self q ps) h1
        · exact ih (hs ▸ mem_cons_of_mem q h)

theorem mem_of_mem_splitOnChar {sep : Char} {s p : Str} {c : Char}
    (hp : p ∈ splitOnChar sep s) (hc : c ∈ p) : c ∈ s := by
  induction s generalizing p with
  | nil =>
    simp only [splitOnChar, mem_singleton] at hp
    subst hp; exact absurd hc (not_mem_nil c)
  | cons x rest ih =>
    simp only [splitOnChar] at hp
    by_cases hx : x = sep
    · rw [if_pos hx] at hp
      rcases mem_cons.mp hp with h | h
      · subst h; exact absurd hc (not_mem_nil c)
      · exact mem_cons_of_mem _ (ih h hc)
    · rw [if_neg hx] at hp
      cases hs : splitOnChar sep rest with
      | nil => exact absurd hs (splitOnChar_ne_nil sep rest)
      | cons q ps =>
        rw [hs] at hp
        rcases mem_cons.mp hp with h | h
        · subst h
          rcases mem_cons.mp hc with h1 | h1
          · exact h1 ▸ mem_cons_self x rest
          · exact mem_cons_of_mem _ (ih (hs ▸ mem_cons_self q ps) h1)
        · exact mem_cons_of_mem _ (ih (hs ▸ mem_cons_of_mem q h) hc)

theorem splitOnChar_joinPipe {a b : Str} (ha : '|' ∉ a) (hb : '|' ∉ b) :
    splitOnChar '|' (joinPipe a b) = [a, b] := by
  unfold joinPipe
  rw [splitOnChar_append ha, splitOnChar_not_mem hb]

theorem sortInsert_perm (e : Str × OverlapData) (l : List (Str × OverlapData)) :
    sortInsert e l ~ e :: l := by
  induction l with
  | nil => exact Perm.refl _
  | cons h t ih =>
    simp only [sortInsert]
    split
    · exact Perm.refl _
    · exact (Perm.cons h ih).trans (Perm.swap e h t)

theorem sortPairs_perm (m : OverlapMatrix) : sortPairs m ~ m := by
  induction m with
  | nil => exact Perm.refl _
  | cons e t ih =>
    exact (sortInsert_perm e (sortPairs t)).trans (Perm.cons e ih)

theorem sortInsert_sorted (e : Str × OverlapData) (l : List (Str × OverlapData))
    (h : Sorted (fun a b => b.2.count ≤ a.2.count) l) :
    Sorted (fun a b => b.2.count ≤ a.2.count) (sortInsert e l) := by
  induction l with
  | nil => simp [sortInsert]
  | cons x t ih =>
    rw [sorted_cons] at h
    simp only [sortInsert]
    split
    · rename_i hc
      rw [sorted_cons]
      refine ⟨?_, by rw [sorted_cons]; exact h⟩
      intro b hb
      rcases mem_cons.mp hb with rfl | hb
      · exact hc
      · exact le_trans (h.1 b hb) hc
    · rename_i hc
      push_neg at hc
      rw [sorted_cons]
      refine ⟨?_, ih h.2⟩
      intro b hb
      rcases mem_cons.mp ((sortInsert_perm e t).mem_iff.mp hb) with rfl | hb
      · exact le_of_lt hc
      · exact h.1 b hb

theorem sortPairs_sorted (m : OverlapMatrix) :
    Sorted (fun a b => b.2.count ≤ a.2.count) (sortPairs m) := by
  induction m with
  | nil => simp [sortPairs]
  | cons e t ih => exact sortInsert_sorted e (sortPairs t) ih

theorem sortInsert_filter_count (e : Str × OverlapData)
    (l : List (Str × OverlapData)) (n : Nat) :
    (sortInsert e l).filter (fun x => decide (x.2.count = n)) =
      if e.2.count = n then e :: l.filter (fun x => decide (x.2.count = n))
      else l.filter (fun x => decide (x.2.count = n)) := by
  induction l with
  | nil =>
    by_cases he : e.2.count = n <;> simp [sortInsert, filter_cons, he]
  | cons x t ih =>
    simp only [sortInsert]
    split
    · rename_i hc
      by_cases he : e.2.count = n <;> simp [filter_cons, he]
    · rename_i hc
      push_neg at hc
      by_cases he : e.2.count = n
      · have hx : ¬ x.2.count = n := by omega
        simp [filter_cons, hx, he, ih]
      · simp only [filter_cons, ih, if_neg he]

theorem sortPairs_filter_count (m : OverlapMatrix) (n : Nat) :
    (sortPairs m).filter (fun x => decide (x.2.count = n)) =
      m.filter (fun x => decide (x.2.count = n)) := by
  induction m with
  | nil => rfl
  | cons e t ih =>
    show (sortInsert e (sortPairs t)).filter _ = _
    rw [sortInsert_filter_count]
    by_cases he : e.2.count = n <;> simp [filter_cons, he, ih]

theorem greedyLoop_eq_foldl (minOv : Nat) (st : GreedyState)
    (entries : List (Str × OverlapData)) :
    greedyLoop minOv st entries =
      (entries.takeWhile (fun e => decide (minOv ≤ e.2.count))).foldl
        (fun s e => processPair s e.1) st := by
  induction entries generalizing st with
  | nil => rfl
  | cons e rest ih =>
    obtain ⟨key, data⟩ := e
    simp only [greedyLoop, takeWhile_cons]
    by_cases h : data.count < minOv
    · have hd : ¬ (minOv ≤ data.count) := by omega
      simp [h, hd]
    · have hd : minOv ≤ data.count := by omega
      rw [if_neg h]
      have hdec : decide (minOv ≤ (key, data).2.count) = true := by
        simpa using hd
      rw [hdec]
      simp only [if_true, foldl_cons]
      exact ih _

theorem mem_addMem_iff {c : Cluster} {x y : Str} :
    x ∈ addMem c y ↔ x ∈ c ∨ x = y := by
  unfold addMem
  split
  · rename_i h
    constructor
    · exact Or.inl
    · rintro (hx | rfl)
      · exact hx
      · exact h
  · simp [mem_append]

theorem mem_addMem_of_mem {c : Cluster} {x : Str} (y : Str) (h : x ∈ c) :
    x ∈ addMem c y := mem_addMem_iff.mpr (Or.inl h)

theorem mem_addMem_self (c : Cluster) (y : Str) : y ∈ addMem c y :=
  mem_addMem_iff.mpr (Or.inr rfl)

theorem getD_mem {α : Type} {l : List α} {j : Nat} (d : α) (h : j < l.length) :
    l.getD j d ∈ l := by
  rw [getD_eq_getElem?_getD, getElem?_eq_getElem h]
  exact getElem_mem h

theorem findClusterIdx_eq_none {cs : List Cluster} {k1 k2 : Str} :
    findClusterIdx cs k1 k2 = none ↔ ∀ c ∈ cs, k1 ∉ c ∧ k2 ∉ c := by
  induction cs with
  | nil => simp [findClusterIdx]
  | cons c rest ih =>
    simp only [findClusterIdx]
    split
    · rename_i h
      constructor
      · intro h0; exact absurd h0 (by simp)
      · intro hall
        rcases hall c (mem_cons_self c rest) with ⟨h1, h2⟩
        rcases h with h | h
        · exact absurd h h1
        · exact absurd h h2
    · rename_i h
      push_neg at h
      rw [Option.map_eq_none', ih, forall_mem_cons]
      constructor
      · intro hr; exact ⟨h, hr⟩
      · intro hboth; exact hboth.2

theorem findClusterIdx_eq_some {cs : List Cluster} {k1 k2 : Str} {i : Nat}
    (h : findClusterIdx cs k1 k2 = some i) :
    i < cs.length ∧ (k1 ∈ cs.getD i [] ∨ k2 ∈ cs.getD i []) ∧
      ∀ j, j < i → k1 ∉ cs.getD j [] ∧ k2 ∉ cs.getD j [] := by
  induction cs generalizing i with
  | nil => simp [findClusterIdx] at h
  | cons c rest ih =>
    simp only [findClusterIdx] at h
    split at h
    · rename_i hm
      have h0 : i = 0 := by
        have := Option.some.inj h
        omega
      subst h0
      exact ⟨by simp, by simpa [getD_cons_zero] using hm,
        fun j hj => absurd hj (by omega)⟩
    · rename_i hm
      push_neg at hm
      rcases Option.map_eq_some'.mp h with ⟨i2, hi2, rfl⟩
      obtain ⟨hlen, hmem, hfirst⟩ := ih hi2
      refine ⟨by simpa using Nat.succ_lt_succ hlen, ?_, ?_⟩
      · simpa [getD_cons_succ] using hmem
      · intro j hj
        cases j with
        | zero => simpa [getD_cons_zero] using hm
        | succ j2 =>
          simpa [getD_cons_succ] using hfirst j2 (by omega)

theorem processPair_assigned (st : GreedyState) (key : Str) :
    (processPair st key).assigned =
      addMem (addMem st.assigned ((splitOnChar '|' key).headD []))
        ((splitOnChar '|' key).getD 1 []) := rfl

theorem processPair_clusters_some {st : GreedyState} {key : Str} {i : Nat}
    (hf : findClusterIdx st.clusters ((splitOnChar '|' key).headD [])
        ((splitOnChar '|' key).getD 1 []) = some i) :
    (processPair st key).clusters =
      st.clusters.set i
        (addMem (addMem (st.clusters.getD i []) ((splitOnChar '|' key).headD []))
          ((splitOnChar '|' key).getD 1 [])) := by
  simp only [List.headD_eq_head?_getD, List.getD_eq_getElem?_getD] at hf
  simp [processPair, hf]

theorem processPair_clusters_none {st : GreedyState} {key : Str}
    (hf : findClusterIdx st.clusters ((splitOnChar '|' key).headD [])
        ((splitOnChar '|' key).getD 1 []) = none) :
    (processPair st key).clusters =
      st.clusters ++ [addMem [(splitOnChar '|' key).headD []]
        ((splitOnChar '|' key).getD 1 [])] := by
  simp only [List.headD_eq_head?_getD, List.getD_eq_getElem?_getD] at hf
  simp [processPair, hf]

theorem processPair_length_le (st : GreedyState) (key : Str) :
    st.clusters.length ≤ (processPair st key).clusters.length := by
  cases hf : findClusterIdx st.clusters ((splitOnChar '|' key).headD [])
      ((splitOnChar '|' key).getD 1 []) with
  | none => rw [processPair_clusters_none hf]; simp
  | some i => rw [processPair_clusters_some hf]; simp

theorem processPair_length_or (st : GreedyState) (key : Str) :
    (processPair st key).clusters.length = st.clusters.length ∨
      (processPair st key).clusters.length = st.clusters.length + 1 := by
  cases hf : findClusterIdx st.clusters ((splitOnChar '|' key).headD [])
      ((splitOnChar '|' key).getD 1 []) with
  | none => rw [processPair_clusters_none hf]; simp
  | some i => rw [processPair_clusters_some hf]; simp

theorem processPair_mono {st : GreedyState} {key : Str} {j : Nat} {x : Str}
    (h : x ∈ st.clusters.getD j []) :
    x ∈ (processPair st key).clusters.getD j [] := by
  have hj : j < st.clusters.length := by
    by_contra hge
    rw [getD_eq_default _ _ (by omega)] at h
    exact absurd h (not_mem_nil x)
  cases hf : findClusterIdx st.clusters ((splitOnChar '|' key).headD [])
      ((splitOnChar '|' key).getD 1 []) with
  | none =>
    rw [processPair_clusters_none hf, getD_append _ _ _ _ hj]
    exact h
  | some i =>
    rw [processPair_clusters_some hf]
    by_cases hij : i = j
    · subst hij
      rw [getD_eq_getElem?_getD, getElem?_set_self (by omega), Option.getD_some]
      exact mem_addMem_of_mem _ (mem_addMem_of_mem _ h)
    · rw [getD_eq_getElem?_getD, getElem?_set_ne hij, ← getD_eq_getElem?_getD]
      exact h

theorem foldl_processPair_mono {entries : List (Str × OverlapData)}
    {st : GreedyState} {j : Nat} {x : Str} (h : x ∈ st.clusters.getD j []) :
    x ∈ ((entries.foldl (fun s e => processPair s e.1) st).clusters.getD j []) := by
  induction entries generalizing st with
  | nil => exact h
  | cons e rest ih => exact ih (processPair_mono h)

theorem foldl_processPair_length_le (entries : List (Str × OverlapData))
    (st : GreedyState) :
    st.clusters.length ≤
      (entries.foldl (fun s e => processPair s e.1) st).clusters.length := by
  induction entries generalizing st with
  | nil => exact le_refl _
  | cons e rest ih =>
    exact le_trans (processPair_length_le st e.1) (ih _)

theorem exists_cluster_mono {st : GreedyState} {key : Str} {x : Str}
    (h : ∃ c ∈ st.clusters, x ∈ c) :
    ∃ c ∈ (processPair st key).clusters, x ∈ c := by
  obtain ⟨c, hc, hx⟩ := h
  obtain ⟨j, hj, hget⟩ := mem_iff_getElem.mp hc
  have hd : x ∈ st.clusters.getD j [] := by
    rw [getD_eq_getElem?_getD, getElem?_eq_getElem hj, Option.getD_some, hget]
    exact hx
  have hmem := @processPair_mono st key j x hd
  have hjlt : j < (processPair st key).clusters.length :=
    lt_of_lt_of_le hj (processPair_length_le st key)
  exact ⟨_, getD_mem [] hjlt, hmem⟩

theorem processPair_kws_mem (st : GreedyState) (key : Str) :
    (∃ c ∈ (processPair st key).clusters, (splitOnChar '|' key).headD [] ∈ c) ∧
      (∃ c ∈ (processPair st key).clusters, (splitOnChar '|' key).getD 1 [] ∈ c) := by
  cases hf : findClusterIdx st.clusters ((splitOnChar '|' key).headD [])
      ((splitOnChar '|' key).getD 1 []) with
  | none =>
    rw [processPair_clusters_none hf]
    refine ⟨⟨_, mem_append_right _ (mem_singleton_self _), ?_⟩,
      ⟨_, mem_append_right _ (mem_singleton_self _), mem_addMem_self _ _⟩⟩
    exact mem_addMem_of_mem _ (mem_singleton_self _)
  | some i =>
    rw [processPair_clusters_some hf]
    have hi : i < st.clusters.length := (findClusterIdx_eq_some hf).1
    have hv : (st.clusters.set i
        (addMem (addMem (st.clusters.getD i []) ((splitOnChar '|' key).headD []))
          ((splitOnChar '|' key).getD 1 []))).getD i [] =
        addMem (addMem (st.clusters.getD i []) ((splitOnChar '|' key).headD []))
          ((splitOnChar '|' key).getD 1 []) := by
      rw [getD_eq_getElem?_getD, getElem?_set_self (by omega), Option.getD_some]
    have hilt : i < (st.clusters.set i
        (addMem (addMem (st.clusters.getD i []) ((splitOnChar '|' key).headD []))
          ((splitOnChar '|' key).getD 1 []))).length := by
      rw [length_set]; exact hi
    refine ⟨⟨_, getD_mem [] hilt, ?_⟩, ⟨_, getD_mem [] hilt, ?_⟩⟩
    · rw [hv]
      exact mem_addMem_of_mem _ (mem_addMem_self _ _)
    · rw [hv]
      exact mem_addMem_self _ _

theorem foldl_processPair_covered (entries : List (Str × OverlapData))
    (st : GreedyState)
    (h : ∀ x ∈ st.assigned, ∃ c ∈ st.clusters, x ∈ c) :
    ∀ x ∈ (entries.foldl (fun s e => processPair s e.1) st).assigned,
      ∃ c ∈ (entries.foldl (fun s e => processPair s e.1) st).clusters, x ∈ c := by
  induction entries generalizing st with
  | nil => exact h
  | cons e rest ih =>
    refine ih _ ?_
    intro x hx
    rw [processPair_assigned, mem_addMem_iff, mem_addMem_iff] at hx
    rcases hx with (hx | rfl) | rfl
    · exact exists_cluster_mono (h x hx)
    · exact (processPair_kws_mem st e.1).1
    · exact (processPair_kws_mem st e.1).2

theorem foldl_processPair_assigned (entries : List (Str × OverlapData))
    (st : GreedyState) (x : Str) :
    x ∈ (entries.foldl (fun s e => processPair s e.1) st).assigned ↔
      x ∈ st.assigned ∨ ∃ e ∈ entries,
        x = (splitOnChar '|' e.1).headD [] ∨ x = (splitOnChar '|' e.1).getD 1 [] := by
  induction entries generalizing st with
  | nil =>
    constructor
    · exact fun h => Or.inl h
    · rintro (h | ⟨e, he, hx⟩)
      · exact h
      · exact absurd he (not_mem_nil e)
  | cons e rest ih =>
    rw [foldl_cons, ih, processPair_assigned]
    constructor
    · rintro (hx | hex)
      · rw [mem_addMem_iff, mem_addMem_iff] at hx
        rcases hx with (hx | rfl) | rfl
        · exact Or.inl hx
        · exact Or.inr ⟨e, mem_cons_self e rest, Or.inl rfl⟩
        · exact Or.inr ⟨e, mem_cons_self e rest, Or.inr rfl⟩
      · obtain ⟨e2, he2, hx⟩ := hex
        exact Or.inr ⟨e2, mem_cons_of_mem _ he2, hx⟩
    · rintro (hx | ⟨e2, he2, hx⟩)
      · left
        rw [mem_addMem_iff, mem_addMem_iff]
        exact Or.inl (Or.inl hx)
      · rcases mem_cons.mp he2 with rfl | he2
        · left
          rw [mem_addMem_iff, mem_addMem_iff]
          rcases hx with rfl | rfl
          · exact Or.inl (Or.inr rfl)
          · exact Or.inr rfl
        · exact Or.inr ⟨e2, he2, hx⟩

theorem mem_firstDedupAux {l : List Str} {seen : List Str} {x : Str} :
    x ∈ firstDedupAux seen l ↔ x ∈ l ∧ x ∉ seen := by
  induction l generalizing seen with
  | nil => simp [firstDedupAux]
  | cons y ys ih =>
    simp only [firstDedupAux]
    split
    · rename_i hy
      rw [ih]
      constructor
      · intro hx
        exact ⟨mem_cons_of_mem _ hx.1, hx.2⟩
      · rintro ⟨hm, hns⟩
        rcases mem_cons.mp hm with rfl | hx
        · exact absurd hy hns
        · exact ⟨hx, hns⟩
    · rename_i hy
      constructor
      · intro hmem
        rcases mem_cons.mp hmem with rfl | hx
        · exact ⟨mem_cons_self x ys, hy⟩
        · obtain ⟨hx2, hns⟩ := ih.mp hx
          refine ⟨mem_cons_of_mem _ hx2, fun hc => hns (mem_cons_of_mem _ hc)⟩
      · rintro ⟨hm, hns⟩
        rcases mem_cons.mp hm with rfl | hx
        · exact mem_cons_self x _
        · by_cases hxy : x = y
          · exact hxy ▸ mem_cons_self x _
          · refine mem_cons_of_mem _ (ih.mpr ⟨hx, ?_⟩)
            intro hc
            rcases mem_cons.mp hc with rfl | hc
            · exact hxy rfl
            · exact hns hc

theorem mem_firstDedup {l : List Str} {x : Str} :
    x ∈ firstDedup l ↔ x ∈ l := by
  rw [firstDedup, mem_firstDedupAux]
  simp

theorem nodup_firstDedupAux (l : List Str) (seen : List Str) :
    (firstDedupAux seen l).Nodup := by
  induction l generalizing seen with
  | nil => simp [firstDedupAux]
  | cons y ys ih =>
    simp only [firstDedupAux]
    split
    · exact ih seen
    · rw [nodup_cons]
      refine ⟨fun hc => ?_, ih (y :: seen)⟩
      exact (mem_firstDedupAux.mp hc).2 (mem_cons_self y seen)

theorem nodup_firstDedup (l : List Str) : (firstDedup l).Nodup :=
  nodup_firstDedupAux l []

theorem mem_setEntry {m : OverlapMatrix} {k : Str} {v : OverlapData}
    {kv : Str × OverlapData} (h : kv ∈ setEntry m k v) :
    kv = (k, v) ∨ kv ∈ m := by
  induction m with
  | nil =>
    simp only [setEntry, mem_singleton] at h
    exact Or.inl h
  | cons e rest ih =>
    simp only [setEntry] at h
    split at h
    · rcases mem_cons.mp h with rfl | h
      · exact Or.inl rfl
      · exact Or.inr (mem_cons_of_mem _ h)
    · rcases mem_cons.mp h with rfl | h
      · exact Or.inr (mem_cons_self _ _)
      · rcases ih h with h | h
        · exact Or.inl h
        · exact Or.inr (mem_cons_of_mem _ h)

theorem mem_combinations {α : Type} {l : List α} {a b : α}
    (h : (a, b) ∈ combinations l) : a ∈ l ∧ b ∈ l := by
  induction l with
  | nil => simp [combinations] at h
  | cons x xs ih =>
    simp only [combinations, mem_append] at h
    rcases h with h | h
    · rcases mem_map.mp h with ⟨y, hy, heq⟩
      injection heq with h1 h2
      subst h1
      subst h2
      exact ⟨mem_cons_self _ _, mem_cons_of_mem _ hy⟩
    · obtain ⟨ha, hb⟩ := ih h
      exact ⟨mem_cons_of_mem _ ha, mem_cons_of_mem _ hb⟩

theorem shared_length_le_right {urls1 urls2 : List Str} (h1 : urls1.Nodup) :
    (urls1.filter (fun u => decide (u ∈ urls2))).length ≤ urls2.length := by
  refine Subperm.length_le (Nodup.subperm (Nodup.filter _ h1) ?_)
  intro x hx
  have := (mem_filter.mp hx).2
  simpa using this

theorem overlap_foldl_inv (serp : SerpData) (ps : List (Str × Str))
    (m : OverlapMatrix)
    (hm : ∀ kv ∈ m,
      1 ≤ kv.2.count ∧ kv.2.count = kv.2.sharedUrls.length ∧
        0 < kv.2.overlapScore ∧ kv.2.overlapScore ≤ 1 ∧
        ∃ kw1 kw2, kw1 ∈ serp.map Prod.fst ∧ kw2 ∈ serp.map Prod.fst ∧
          kv.1 = joinPipe kw1 kw2 ∧
          kv.2.overlapScore = (kv.2.count : ℚ) /
            (((firstDedup (lookupSerp serp kw1)).length.min
              (firstDedup (lookupSerp serp kw2)).length : Nat) : ℚ))
    (hps : ∀ p ∈ ps, p.1 ∈ serp.map Prod.fst ∧ p.2 ∈ serp.map Prod.fst) :
    ∀ kv ∈ ps.foldl (overlapStep serp) m,
      1 ≤ kv.2.count ∧ kv.2.count = kv.2.sharedUrls.length ∧
        0 < kv.2.overlapScore ∧ kv.2.overlapScore ≤ 1 ∧
        ∃ kw1 kw2, kw1 ∈ serp.map Prod.fst ∧ kw2 ∈ serp.map Prod.fst ∧
          kv.1 = joinPipe kw1 kw2 ∧
          kv.2.overlapScore = (kv.2.count : ℚ) /
            (((firstDedup (lookupSerp serp kw1)).length.min
              (firstDedup (lookupSerp serp kw2)).length : Nat) : ℚ) := by
  induction ps generalizing m with
  | nil => exact hm
  | cons p rest ih =>
    rw [foldl_cons]
    refine ih _ ?_ (fun q hq => hps q (mem_cons_of_mem _ hq))
    intro kv hkv
    simp only [overlapStep] at hkv
    split at hkv
    · rename_i hpos
      rcases mem_setEntry hkv with rfl | hkv
      · -- the freshly inserted entry
        obtain ⟨hp1, hp2⟩ := hps p (mem_cons_self p rest)
        set urls1 := firstDedup (lookupSerp serp p.1) with hu1
        set urls2 := firstDedup (lookupSerp serp p.2) with hu2
        set shared := urls1.filter (fun u => decide (u ∈ urls2)) with hsh
        have hle1 : shared.length ≤ urls1.length := length_filter_le _ _
        have hle2 : shared.length ≤ urls2.length :=
          shared_length_le_right (nodup_firstDedup _)
        have hcount : 1 ≤ shared.length := hpos
        have hminpos : 0 < urls1.length.min urls2.length := by
          rw [Nat.lt_min]
          omega
        have hminle : shared.length ≤ urls1.length.min urls2.length := by
          rw [Nat.le_min]
          omega
        have hscore : mkRat (shared.length : Int) (urls1.length.min urls2.length) =
            (shared.length : ℚ) / ((urls1.length.min urls2.length : Nat) : ℚ) := by
          rw [Rat.mkRat_eq_div]
          push_cast
          rfl
        refine ⟨hcount, rfl, ?_, ?_, p.1, p.2, hp1, hp2, rfl, hscore⟩
        · rw [hscore]
          refine div_pos ?_ ?_
          · exact_mod_cast hcount
          · exact_mod_cast hminpos
        · rw [hscore]
          rw [div_le_one (by exact_mod_cast hminpos)]
          exact_mod_cast hminle
      · exact hm kv hkv
    · exact hm kv hkv

theorem processPair_members {st : GreedyState} {key : Str} {keys : List Str}
    (hst : ∀ c ∈ st.clusters, ∀ x ∈ c, x ∈ keys)
    (hkey : (splitOnChar '|' key).headD [] ∈ keys ∧
      (splitOnChar '|' key).getD 1 [] ∈ keys) :
    ∀ c ∈ (processPair st key).clusters, ∀ x ∈ c, x ∈ keys := by
  intro c hc x hx
  cases hf : findClusterIdx st.clusters ((splitOnChar '|' key).headD [])
      ((splitOnChar '|' key).getD 1 []) with
  | none =>
    rw [processPair_clusters_none hf] at hc
    rcases mem_append.mp hc with hc | hc
    · exact hst c hc x hx
    · rw [mem_singleton] at hc
      subst hc
      rw [mem_addMem_iff, mem_singleton] at hx
      rcases hx with rfl | rfl
      · exact hkey.1
      · exact hkey.2
  | some i =>
    rw [processPair_clusters_some hf] at hc
    rcases mem_or_eq_of_mem_set hc with hc | rfl
    · exact hst c hc x hx
    · rw [mem_addMem_iff, mem_addMem_iff] at hx
      rcases hx with (hx | rfl) | rfl
      · have hi : i < st.clusters.length := (findClusterIdx_eq_some hf).1
        exact hst _ (getD_mem [] hi) x hx
      · exact hkey.1
      · exact hkey.2

theorem foldl_processPair_members {entries : List (Str × OverlapData)}
    {st : GreedyState} {keys : List Str}
    (hst : ∀ c ∈ st.clusters, ∀ x ∈ c, x ∈ keys)
    (hent : ∀ e ∈ entries, (splitOnChar '|' e.1).headD [] ∈ keys ∧
      (splitOnChar '|' e.1).getD 1 [] ∈ keys) :
    ∀ c ∈ ((entries.foldl (fun s e => processPair s e.1) st).clusters),
      ∀ x ∈ c, x ∈ keys := by
  induction entries generalizing st with
  | nil => exact hst
  | cons e rest ih =>
    rw [foldl_cons]
    exact ih
      (processPair_members hst (hent e (mem_cons_self e rest)))
      (fun q hq => hent q (mem_cons_of_mem _ hq))

theorem jsToLower_fix {c : Char} (h : isSlugChar c = true) : jsToLower c = c := by
  simp only [isSlugChar, Bool.or_eq_true, decide_eq_true_eq] at h
  unfold jsToLower
  rw [if_neg]
  omega

theorem slugChar_ne_space {c : Char} (h : isSlugChar c = true) : ¬ c = ' ' := by
  intro he
  subst he
  exact absurd h (by decide)

theorem map_fix {f : Char → Char} {l : Str} (h : ∀ c ∈ l, f c = c) :
    l.map f = l := by
  induction l with
  | nil => rfl
  | cons a t ih =>
    rw [map_cons, h a (mem_cons_self a t), ih (fun c hc => h c (mem_cons_of_mem _ hc))]

theorem mem_joinSep {sep : Char} {ps : List Str} {c : Char}
    (h : c ∈ joinSep sep ps) : c = sep ∨ ∃ p ∈ ps, c ∈ p := by
  induction ps with
  | nil => exact absurd h (not_mem_nil c)
  | cons p rest ih =>
    cases rest with
    | nil =>
      exact Or.inr ⟨p, mem_cons_self p [], h⟩
    | cons p2 rest2 =>
      have hJ : joinSep sep (p :: p2 :: rest2) =
          p ++ sep :: joinSep sep (p2 :: rest2) := rfl
      rw [hJ] at h
      rcases mem_append.mp h with h | h
      · exact Or.inr ⟨p, mem_cons_self p _, h⟩
      · rcases mem_cons.mp h with rfl | h
        · exact Or.inl rfl
        · rcases ih h with h | ⟨q, hq, hc⟩
          · exact Or.inl h
          · exact Or.inr ⟨q, mem_cons_of_mem _ hq, hc⟩

theorem generateSlug_chars (s : Str) :
    ∀ c ∈ generateSlug s, isSlugChar c = true := by
  intro c hc
  unfold generateSlug at hc
  have hc2 := take_subset _ _ hc
  rcases mem_joinSep hc2 with rfl | ⟨p, hp, hcp⟩
  · decide
  · have hp2 := (mem_filter.mp hp).1
    have hcs := mem_of_mem_splitOnChar hp2 hcp
    exact (mem_filter.mp hcs).2

theorem joinSep_ne_nil {sep : Char} {p : Str} {ps : List Str} (hp : p ≠ []) :
    joinSep sep (p :: ps) ≠ [] := by
  cases ps with
  | nil => simpa [joinSep] using hp
  | cons q ps2 => simp [joinSep]

theorem getLast?_joinSep_ne {sep : Char} {ps : List Str}
    (h : ∀ p ∈ ps, p ≠ [] ∧ sep ∉ p) :
    (joinSep sep ps).getLast? ≠ some sep := by
  induction ps with
  | nil => simp [joinSep]
  | cons p rest ih =>
    cases rest with
    | nil =>
      have hp := h p (mem_cons_self p [])
      show p.getLast? ≠ some sep
      rw [getLast?_eq_getLast p hp.1]
      intro hc
      exact hp.2 ((Option.some.inj hc) ▸ getLast_mem hp.1)
    | cons p2 rest2 =>
      have hrest : ∀ q ∈ p2 :: rest2, q ≠ [] ∧ sep ∉ q :=
        fun q hq => h q (mem_cons_of_mem _ hq)
      have hJne : joinSep sep (p2 :: rest2) ≠ [] :=
        joinSep_ne_nil (hrest p2 (mem_cons_self p2 rest2)).1
      have hJ : joinSep sep (p :: p2 :: rest2) =
          p ++ sep :: joinSep sep (p2 :: rest2) := rfl
      rw [hJ, getLast?_append]
      cases hg : joinSep sep (p2 :: rest2) with
      | nil => exact absurd hg hJne
      | cons a t =>
        rw [getLast?_cons_cons]
        have hIH := ih hrest
        rw [hg] at hIH
        cases hv : (a :: t).getLast? with
        | none => simp [getLast?_eq_getLast (a :: t) (cons_ne_nil a t)] at hv
        | some v =>
          rw [Option.or_some]
          rw [hv] at hIH
          exact hIH

theorem head?_joinSep_ne {sep : Char} {ps : List Str}
    (h : ∀ p ∈ ps, p ≠ [] ∧ sep ∉ p) :
    (joinSep sep ps).head? ≠ some sep := by
  cases ps with
  | nil => simp [joinSep]
  | cons p rest =>
    have hp := h p (mem_cons_self p rest)
    cases hpc : p with
    | nil => exact absurd hpc hp.1
    | cons c p2 =>
      have hcs : c ≠ sep := by
        intro h2
        exact hp.2 (hpc ▸ mem_cons.mpr (Or.inl h2.symm))
      cases rest with
      | nil =>
        show (c :: p2).head? ≠ some sep
        intro hc
        exact hcs (Option.some.inj hc)
      | cons p3 rest2 =>
        show ((c :: p2) ++ sep :: joinSep sep (p3 :: rest2)).head? ≠ some sep
        rw [cons_append]
        intro hc
        exact hcs (Option.some.inj hc)

theorem chain'_of_not_mem {sep : Char} {l : Str} (h : sep ∉ l) :
    Chain' (fun a b => ¬(a = sep ∧ b = sep)) l := by
  induction l with
  | nil => exact chain'_nil
  | cons a t ih =>
    rw [chain'_cons']
    refine ⟨?_, ih (fun hm => h (mem_cons_of_mem _ hm))⟩
    intro y hy hand
    exact h (hand.1 ▸ mem_cons_self a t)

theorem chain'_joinSep {sep : Char} {ps : List Str}
    (h : ∀ p ∈ ps, p ≠ [] ∧ sep ∉ p) :
    Chain' (fun a b => ¬(a = sep ∧ b = sep)) (joinSep sep ps) := by
  induction ps with
  | nil => exact chain'_nil
  | cons p rest ih =>
    have hp := h p (mem_cons_self p rest)
    cases rest with
    | nil => exact chain'_of_not_mem hp.2
    | cons p2 rest2 =>
      have hrest : ∀ q ∈ p2 :: rest2, q ≠ [] ∧ sep ∉ q :=
        fun q hq => h q (mem_cons_of_mem _ hq)
      show Chain' _ (p ++ sep :: joinSep sep (p2 :: rest2))
      rw [chain'_append]
      refine ⟨chain'_of_not_mem hp.2, ?_, ?_⟩
      · rw [chain'_cons']
        refine ⟨?_, ih hrest⟩
        intro y hy hand
        exact head?_joinSep_ne hrest (by rw [hy, hand.2])
      · intro x hx y hy hand
        rw [getLast?_eq_getLast p hp.1] at hx
        apply hp.2
        have h1 : p.getLast hp.1 = x := Option.some.inj hx
        rw [← hand.1, ← h1]
        exact getLast_mem hp.1

theorem head?_take_pos {α : Type} {l : List α} {n : Nat} (hn : 0 < n) :
    (List.take n l).head? = l.head? := by
  cases l with
  | nil => simp
  | cons a t =>
    cases n with
    | zero => omega
    | succ m => rw [take_succ_cons]; rfl

theorem take_joinSep_parts (sep : Char) (ps : List Str) (n : Nat)
    (h : ∀ p ∈ ps, p ≠ [] ∧ sep ∉ p) :
    List.take n (joinSep sep ps) = [] ∨
      ((List.take n (joinSep sep ps)).getLast? ≠ some sep →
        ∀ q ∈ splitOnChar sep (List.take n (joinSep sep ps)),
          q ≠ [] ∧ sep ∉ q) := by
  induction ps generalizing n with
  | nil => left; simp [joinSep]
  | cons p rest ih =>
    cases rest with
    | nil =>
      have hJ1 : joinSep sep [p] = p := rfl
      rw [hJ1]
      by_cases hnil : List.take n p = []
      · exact Or.inl hnil
      · right
        intro hlast q hq
        have hsub : sep ∉ List.take n p :=
          fun hm => (h p (mem_cons_self p [])).2 (take_subset n p hm)
        rw [splitOnChar_not_mem hsub, mem_singleton] at hq
        subst hq
        exact ⟨hnil, hsub⟩
    | cons p2 rest2 =>
      have hp := h p (mem_cons_self p _)
      have hrest : ∀ q ∈ p2 :: rest2, q ≠ [] ∧ sep ∉ q :=
        fun q hq => h q (mem_cons_of_mem _ hq)
      have hJ : joinSep sep (p :: p2 :: rest2) =
          p ++ sep :: joinSep sep (p2 :: rest2) := rfl
      rw [hJ]
      by_cases hn : n ≤ p.length
      · have ht : List.take n (p ++ sep :: joinSep sep (p2 :: rest2)) =
            List.take n p := by
          rw [take_append_eq_append_take]
          have h0 : n - p.length = 0 := by omega
          rw [h0, take_zero, append_nil]
        rw [ht]
        by_cases hnil : List.take n p = []
        · exact Or.inl hnil
        · right
          intro hlast q hq
          have hsub : sep ∉ List.take n p :=
            fun hm => hp.2 (take_subset n p hm)
          rw [splitOnChar_not_mem hsub, mem_singleton] at hq
          subst hq
          exact ⟨hnil, hsub⟩
      · push_neg at hn
        have hm : n - p.length = (n - p.length - 1) + 1 := by omega
        have ht : List.take n (p ++ sep :: joinSep sep (p2 :: rest2)) =
            p ++ sep :: List.take (n - p.length - 1) (joinSep sep (p2 :: rest2)) := by
          rw [take_append_eq_append_take, take_of_length_le (by omega)]
          congr 1
          conv_lhs => rw [hm]
          rw [take_succ_cons]
        rw [ht]
        right
        intro hlast q hq
        have hlast2 : (p ++ sep ::
            List.take (n - p.length - 1) (joinSep sep (p2 :: rest2))).getLast? =
            (sep :: List.take (n - p.length - 1) (joinSep sep (p2 :: rest2))).getLast? := by
          rw [getLast?_append]
          cases hc : (sep :: List.take (n - p.length - 1)
              (joinSep sep (p2 :: rest2))).getLast? with
          | none =>
            rw [getLast?_eq_getLast _ (cons_ne_nil _ _)] at hc
            exact absurd hc (by simp)
          | some v => rw [Option.or_some]
        rcases ih (n - p.length - 1) hrest with hnil2 | hgood
        · exfalso
          apply hlast
          rw [hlast2, hnil2]
          rfl
        · have hg2last : (List.take (n - p.length - 1)
              (joinSep sep (p2 :: rest2))).getLast? ≠ some sep := by
            intro hcon
            apply hlast
            rw [hlast2]
            cases hg2c : List.take (n - p.length - 1) (joinSep sep (p2 :: rest2)) with
            | nil => rw [hg2c] at hcon; exact absurd hcon (by simp)
            | cons a t =>
              rw [hg2c] at hcon
              rw [getLast?_cons_cons]
              exact hcon
          have hq2 := hgood hg2last
          rw [splitOnChar_append hp.2] at hq
          rcases mem_cons.mp hq with rfl | hq
          · exact hp
          · exact hq2 q hq

theorem generateSlug_of_canon {g : Str} (hchars : ∀ c ∈ g, isSlugChar c = true)
    (hparts : ∀ q ∈ splitOnChar '-' g, q ≠ []) (hlen : g.length ≤ 60) :
    generateSlug g = g := by
  unfold generateSlug
  rw [map_fix (fun c hc => jsToLower_fix (hchars c hc))]
  rw [map_fix (fun c hc => if_neg (slugChar_ne_space (hchars c hc)))]
  rw [filter_eq_self.mpr hchars]
  rw [filter_eq_self.mpr (fun q hq => decide_eq_true (hparts q hq))]
  rw [joinSep_splitOnChar]
  exact take_of_length_le hlen

/-- C1 counterexample: in the chain scenario the pair `b`-`c` is processed
after clusters for `a`-`b` and `c`-`d` exist, so keyword `c` of the map ends
up in two clusters: the output is not a partition. -/
theorem clusterKeywords_partition_cex :
    kwC ∈ serpChain.map Prod.fst ∧
      List.countP (fun c => decide (kwC ∈ c))
        (clusterKeywords serpChain (calculateUrlOverlap serpChain) 3) = 2 := by
  decide

/-- C1 (amended): for every keyword map and the overlap matrix derived from
it, every keyword of the map appears in at least one returned cluster; the
counterexample shows a keyword can appear in two, so exact partition fails. -/
theorem clusterKeywords_covers (serp : SerpData) (minOv : Nat) (kw : Str)
    (hkw : kw ∈ serp.map Prod.fst) :
    ∃ c ∈ clusterKeywords serp (calculateUrlOverlap serp) minOv, kw ∈ c := by
  show ∃ c ∈ (greedyLoop minOv ⟨[], []⟩ (sortPairs (calculateUrlOverlap serp))).clusters ++
      ((serp.map Prod.fst).filter (fun k => decide
        (k ∉ (greedyLoop minOv ⟨[], []⟩ (sortPairs (calculateUrlOverlap serp))).assigned))).map
        (fun k => [k]), kw ∈ c
  set st := greedyLoop minOv ⟨[], []⟩ (sortPairs (calculateUrlOverlap serp)) with hst
  by_cases ha : kw ∈ st.assigned
  · have hcov : ∀ x ∈ st.assigned, ∃ c ∈ st.clusters, x ∈ c := by
      rw [hst, greedyLoop_eq_foldl]
      exact foldl_processPair_covered _ _
        (by intro x hx; exact absurd hx (not_mem_nil x))
    obtain ⟨c, hc, hx⟩ := hcov kw ha
    exact ⟨c, mem_append_left _ hc, hx⟩
  · refine ⟨[kw], mem_append_right _ ?_, mem_singleton_self kw⟩
    refine mem_map.mpr ⟨kw, ?_, rfl⟩
    refine mem_filter.mpr ⟨hkw, ?_⟩
    simpa using ha

/-- C1 witness: coverage applied to the chain scenario at keyword `a`. -/
theorem clusterKeywords_covers_witness :
    ∃ c ∈ clusterKeywords serpChain (calculateUrlOverlap serpChain) 3, kwA ∈ c :=
  clusterKeywords_covers serpChain 3 kwA (by decide)

/-- C2: one greedy step adds both split keywords to the first cluster (in
creation order) containing either, or creates a new two-element cluster;
each existing cluster keeps its position and only grows (no merge, no
removal), both for one step and along the whole loop. -/
theorem processPair_first_match_spec (st : GreedyState) (key : Str) :
    (findClusterIdx st.clusters ((splitOnChar '|' key).headD [])
        ((splitOnChar '|' key).getD 1 []) = none →
      (∀ c ∈ st.clusters, (splitOnChar '|' key).headD [] ∉ c ∧
        (splitOnChar '|' key).getD 1 [] ∉ c) ∧
      (processPair st key).clusters =
        st.clusters ++ [addMem [(splitOnChar '|' key).headD []]
          ((splitOnChar '|' key).getD 1 [])]) ∧
    (∀ i, findClusterIdx st.clusters ((splitOnChar '|' key).headD [])
        ((splitOnChar '|' key).getD 1 []) = some i →
      i < st.clusters.length ∧
        ((splitOnChar '|' key).headD [] ∈ st.clusters.getD i [] ∨
          (splitOnChar '|' key).getD 1 [] ∈ st.clusters.getD i []) ∧
        (∀ j, j < i → (splitOnChar '|' key).headD [] ∉ st.clusters.getD j [] ∧
          (splitOnChar '|' key).getD 1 [] ∉ st.clusters.getD j []) ∧
        (processPair st key).clusters = st.clusters.set i
          (addMem (addMem (st.clusters.getD i []) ((splitOnChar '|' key).headD []))
            ((splitOnChar '|' key).getD 1 []))) ∧
    (∀ j x, x ∈ st.clusters.getD j [] →
      x ∈ (processPair st key).clusters.getD j []) ∧
    ((processPair st key).clusters.length = st.clusters.length ∨
      (processPair st key).clusters.length = st.clusters.length + 1) ∧
    (∀ (entries : List (Str × OverlapData)) (minOv j : Nat) (x : Str),
      x ∈ st.clusters.getD j [] →
        x ∈ (greedyLoop minOv st entries).clusters.getD j []) := by
  refine ⟨?_, ?_, fun j x h => processPair_mono h,
    processPair_length_or st key, ?_⟩
  · intro hf
    exact ⟨findClusterIdx_eq_none.mp hf, processPair_clusters_none hf⟩
  · intro i hf
    obtain ⟨h1, h2, h3⟩ := findClusterIdx_eq_some hf
    exact ⟨h1, h2, h3, processPair_clusters_some hf⟩
  · intro entries minOv j x h
    rw [greedyLoop_eq_foldl]
    exact foldl_processPair_mono h

/-- C2 witness: with clusters for `a` and `b` and the pair key `b|c`, the
step grows the second cluster (the first containing one of the keywords). -/
theorem processPair_first_match_spec_witness :
    (processPair ⟨[[kwA], [kwB]], []⟩ (joinPipe kwB kwC)).clusters =
      ([[kwA], [kwB]] : List Cluster).set 1
        (addMem (addMem (([[kwA], [kwB]] : List Cluster).getD 1 [])
          ((splitOnChar '|' (joinPipe kwB kwC)).headD []))
          ((splitOnChar '|' (joinPipe kwB kwC)).getD 1 [])) :=
  ((processPair_first_match_spec ⟨[[kwA], [kwB]], []⟩ (joinPipe kwB kwC)).2.1 1
    (by decide)).2.2.2

/-- C3: the entry list is sorted by count descending, stably (entries of any
fixed count keep their insertion order), the loop processes exactly the
longest prefix with count at or above the threshold (stopping at the first
entry below it), every processed entry meets the threshold, and every
multi-keyword output cluster comes from that greedy phase. -/
theorem clusterKeywords_sorted_threshold (m : OverlapMatrix) (minOv : Nat)
    (serp : SerpData) :
    sortPairs m ~ m ∧
    Sorted (fun a b => b.2.count ≤ a.2.count) (sortPairs m) ∧
    (∀ n, (sortPairs m).filter (fun e => decide (e.2.count = n)) =
      m.filter (fun e => decide (e.2.count = n))) ∧
    greedyLoop minOv ⟨[], []⟩ (sortPairs m) =
      ((sortPairs m).takeWhile (fun e => decide (minOv ≤ e.2.count))).foldl
        (fun s e => processPair s e.1) ⟨[], []⟩ ∧
    (∀ e ∈ (sortPairs m).takeWhile (fun e => decide (minOv ≤ e.2.count)),
      minOv ≤ e.2.count) ∧
    (∀ c ∈ clusterKeywords serp m minOv, 2 ≤ c.length →
      c ∈ (greedyLoop minOv ⟨[], []⟩ (sortPairs m)).clusters) := by
  refine ⟨sortPairs_perm m, sortPairs_sorted m, sortPairs_filter_count m,
    greedyLoop_eq_foldl minOv _ _, ?_, ?_⟩
  · intro e he
    simpa using mem_takeWhile_imp he
  · intro c hc hlen
    rcases mem_append.mp hc with hc | hc
    · exact hc
    · rcases mem_map.mp hc with ⟨kw, hkw, rfl⟩
      simp at hlen

/-- C3 witness: in the section-8 scenario the multi-keyword cluster comes
from the greedy phase. -/
theorem clusterKeywords_sorted_threshold_witness :
    [kwA, kwB, kwC] ∈
      (greedyLoop 3 ⟨[], []⟩ (sortPairs (calculateUrlOverlap serpABCD))).clusters :=
  (clusterKeywords_sorted_threshold (calculateUrlOverlap serpABCD) 3
    serpABCD).2.2.2.2.2 [kwA, kwB, kwC] (by decide) (by decide)

/-- C4 counterexample: the 61-character input of 59 `a`s then `-b` has a slug
truncated right after the hyphen, so a second application strips that
trailing hyphen and the results differ: generateSlug is not idempotent. -/
theorem generateSlug_idem_cex :
    generateSlug (generateSlug slugCexA) ≠ generateSlug slugCexA := by decide

/-- C4 (amended): generateSlug is idempotent on every input whose slug does
not end in a hyphen; only the 60-character truncation can produce such a
trailing hyphen. -/
theorem generateSlug_idem (s : Str)
    (h : (generateSlug s).getLast? ≠ some '-') :
    generateSlug (generateSlug s) = generateSlug s := by
  set ps := (splitOnChar '-'
      (((s.map jsToLower).map (fun c => if c = ' ' then '-' else c)).filter
        isSlugChar)).filter (fun seg => decide (seg ≠ [])) with hps_def
  have hgood : ∀ p ∈ ps, p ≠ [] ∧ '-' ∉ p := by
    intro p hp
    rw [hps_def, mem_filter] at hp
    refine ⟨by simpa using hp.2, not_mem_of_mem_splitOnChar hp.1⟩
  have hgdef : generateSlug s = List.take 60 (joinSep '-' ps) := rfl
  rcases take_joinSep_parts '-' ps 60 hgood with hnil | hgood2
  · rw [hgdef, hnil]
    rfl
  · have hq := hgood2 (by rw [← hgdef]; exact h)
    apply generateSlug_of_canon
    · exact generateSlug_chars s
    · intro q hq2
      rw [hgdef] at hq2
      exact (hq q hq2).1
    · rw [hgdef, length_take]
      exact Nat.min_le_left _ _

/-- C4 witness: idempotence at a concrete input whose slug has no trailing
hyphen. -/
theorem generateSlug_idem_witness :
    generateSlug (generateSlug (['s', 'e', 'o', ' ', 't', 'o', 'o', 'l', 's'] : Str)) =
      generateSlug (['s', 'e', 'o', ' ', 't', 'o', 'o', 'l', 's'] : Str) :=
  generateSlug_idem ['s', 'e', 'o', ' ', 't', 'o', 'o', 'l', 's'] (by decide)

/-- C5 counterexample: the slug of 59 `x`s then `-yz` ends in a hyphen, so
the claimed absence of a trailing hyphen fails. -/
theorem generateSlug_trailing_cex :
    (generateSlug slugCexB).getLast? = some '-' := by decide

/-- C5 (amended): every slug has length at most 60, only characters in
`[a-z0-9-]`, no leading hyphen and no two consecutive hyphens; a trailing
hyphen can occur, but only when the slug was truncated to exactly 60
characters. -/
theorem generateSlug_shape (s : Str) :
    (generateSlug s).length ≤ 60 ∧
      (∀ c ∈ generateSlug s, isSlugChar c = true) ∧
      (generateSlug s).head? ≠ some '-' ∧
      Chain' (fun a b => ¬(a = '-' ∧ b = '-')) (generateSlug s) ∧
      ((generateSlug s).getLast? = some '-' → (generateSlug s).length = 60) := by
  set ps := (splitOnChar '-'
      (((s.map jsToLower).map (fun c => if c = ' ' then '-' else c)).filter
        isSlugChar)).filter (fun seg => decide (seg ≠ [])) with hps_def
  have hgood : ∀ p ∈ ps, p ≠ [] ∧ '-' ∉ p := by
    intro p hp
    rw [hps_def, mem_filter] at hp
    refine ⟨by simpa using hp.2, not_mem_of_mem_splitOnChar hp.1⟩
  have hgdef : generateSlug s = List.take 60 (joinSep '-' ps) := rfl
  refine ⟨?_, generateSlug_chars s, ?_, ?_, ?_⟩
  · rw [hgdef, length_take]
    exact Nat.min_le_left _ _
  · rw [hgdef, head?_take_pos (by omega)]
    exact head?_joinSep_ne hgood
  · rw [hgdef]
    exact Chain'.take (chain'_joinSep hgood) 60
  · intro hl
    by_cases hlen : (joinSep '-' ps).length ≤ 60
    · rw [hgdef, take_of_length_le hlen] at hl
      exact absurd hl (getLast?_joinSep_ne hgood)
    · rw [hgdef, length_take, Nat.min_eq_left (by omega)]

/-- C5 witness: the truncation conjunct applied where the trailing hyphen
does occur, giving length exactly 60. -/
theorem generateSlug_shape_witness : (generateSlug slugCexB).length = 60 :=
  (generateSlug_shape slugCexB).2.2.2.2 (by decide)

/-- C6: every materialized overlap entry has a count of at least 1 equal to
the number of shared URLs, a score equal to count divided by the minimum of
the two deduplicated URL-set sizes, and that score lies in (0, 1]. -/
theorem calculateUrlOverlap_score_spec (serp : SerpData)
    (kv : Str × OverlapData) (hkv : kv ∈ calculateUrlOverlap serp) :
    1 ≤ kv.2.count ∧ kv.2.count = kv.2.sharedUrls.length ∧
      0 < kv.2.overlapScore ∧ kv.2.overlapScore ≤ 1 ∧
      ∃ kw1 kw2, kw1 ∈ serp.map Prod.fst ∧ kw2 ∈ serp.map Prod.fst ∧
        kv.1 = joinPipe kw1 kw2 ∧
        kv.2.overlapScore = (kv.2.count : ℚ) /
          (((firstDedup (lookupSerp serp kw1)).length.min
            (firstDedup (lookupSerp serp kw2)).length : Nat) : ℚ) := by
  refine overlap_foldl_inv serp _ []
    (by intro kv2 h2; exact absurd h2 (not_mem_nil kv2)) ?_ kv hkv
  intro p hp
  obtain ⟨a, b⟩ := p
  exact mem_combinations hp

/-- C6 witness: the score of the concrete `a`-`b` entry of the section-8
scenario is in (0, 1]. -/
theorem calculateUrlOverlap_score_spec_witness :
    0 < (⟨urlsShared, 5, (1 : ℚ)⟩ : OverlapData).overlapScore ∧
      (⟨urlsShared, 5, (1 : ℚ)⟩ : OverlapData).overlapScore ≤ 1 := by
  have h := calculateUrlOverlap_score_spec serpABCD
    (joinPipe kwA kwB, ⟨urlsShared, 5, 1⟩) (by decide)
  exact ⟨h.2.2.1, h.2.2.2.1⟩

/-- C7: empty input gives the empty mapping, and a row is included exactly
when its trimmed position fails to parse (coerced to 0) or parses to an
integer at most 10, with keyword and url trimmed; rows with position above
10 are dropped. -/
theorem loadSerpData_spec :
    loadSerpData [] = ([] : SerpData) ∧
    ∀ (rows : List Row) (r : Row),
      loadSerpData (rows ++ [r]) =
        match jsParseInt (jsTrim r.position) with
        | none => pushUrl (loadSerpData rows) (jsTrim r.keyword) (jsTrim r.url)
        | some n =>
            if n ≤ 10 then
              pushUrl (loadSerpData rows) (jsTrim r.keyword) (jsTrim r.url)
            else loadSerpData rows := by
  refine ⟨rfl, ?_⟩
  intro rows r
  show (rows ++ [r]).foldl loadStep [] = _
  rw [foldl_append, foldl_cons, foldl_nil]
  show loadStep (loadSerpData rows) r = _
  unfold loadStep
  cases h : jsParseInt (jsTrim r.position) with
  | none => simp [h]
  | some n => simp [h]

/-- C8: in the section-8 scenario the overlap matrix has exactly the three
entries `a`-`b`, `a`-`c`, `b`-`c` with count 5 and score 1, and clustering at
threshold 3 returns the cluster of `a`, `b`, `c` followed by the singleton
`d`. -/
theorem overlap_scenario_spec :
    calculateUrlOverlap serpABCD =
      [ (joinPipe kwA kwB, ⟨urlsShared, 5, 1⟩)
      , (joinPipe kwA kwC, ⟨urlsShared, 5, 1⟩)
      , (joinPipe kwB kwC, ⟨urlsShared, 5, 1⟩) ] ∧
    clusterKeywords serpABCD (calculateUrlOverlap serpABCD) 3 =
      [[kwA, kwB, kwC], [kwD]] := by
  constructor <;> decide

/-- C9: the output is the greedy clusters followed by one singleton for each
map keyword not assigned by any processed pair, in map order; membership of
`assigned` is exactly being a component of a processed pair, and the output
covers every keyword of the map. -/
theorem clusterKeywords_singletons_spec (serp : SerpData) (m : OverlapMatrix)
    (minOv : Nat) :
    clusterKeywords serp m minOv =
      (greedyLoop minOv ⟨[], []⟩ (sortPairs m)).clusters ++
        ((serp.map Prod.fst).filter (fun kw => decide
          (kw ∉ (greedyLoop minOv ⟨[], []⟩ (sortPairs m)).assigned))).map
          (fun kw => [kw]) ∧
    (∀ x, x ∈ (greedyLoop minOv ⟨[], []⟩ (sortPairs m)).assigned ↔
      ∃ e ∈ (sortPairs m).takeWhile (fun e => decide (minOv ≤ e.2.count)),
        x = (splitOnChar '|' e.1).headD [] ∨
          x = (splitOnChar '|' e.1).getD 1 []) ∧
    (∀ kw ∈ serp.map Prod.fst, ∃ c ∈ clusterKeywords serp m minOv, kw ∈ c) := by
  refine ⟨rfl, ?_, ?_⟩
  · intro x
    rw [greedyLoop_eq_foldl, foldl_processPair_assigned]
    constructor
    · rintro (hx | hx)
      · exact absurd hx (not_mem_nil x)
      · exact hx
    · exact fun hx => Or.inr hx
  · intro kw hkw
    show ∃ c ∈ (greedyLoop minOv ⟨[], []⟩ (sortPairs m)).clusters ++
        ((serp.map Prod.fst).filter (fun k => decide
          (k ∉ (greedyLoop minOv ⟨[], []⟩ (sortPairs m)).assigned))).map
          (fun k => [k]), kw ∈ c
    set st := greedyLoop minOv ⟨[], []⟩ (sortPairs m) with hst
    by_cases ha : kw ∈ st.assigned
    · have hcov : ∀ x ∈ st.assigned, ∃ c ∈ st.clusters, x ∈ c := by
        rw [hst, greedyLoop_eq_foldl]
        exact foldl_processPair_covered _ _
          (by intro x hx; exact absurd hx (not_mem_nil x))
      obtain ⟨c, hc, hx⟩ := hcov kw ha
      exact ⟨c, mem_append_left _ hc, hx⟩
    · refine ⟨[kw], mem_append_right _ ?_, mem_singleton_self kw⟩
      refine mem_map.mpr ⟨kw, ?_, rfl⟩
      refine mem_filter.mpr ⟨hkw, ?_⟩
      simpa using ha

/-- C9 witness: coverage in the section-8 scenario at the singleton keyword
`d`. -/
theorem clusterKeywords_singletons_spec_witness :
    ∃ c ∈ clusterKeywords serpABCD (calculateUrlOverlap serpABCD) 3, kwD ∈ c :=
  (clusterKeywords_singletons_spec serpABCD (calculateUrlOverlap serpABCD) 3).2.2
    kwD (by decide)

/-- C10: when no keyword contains `|`, joining with `|` and splitting back is
faithful, so all cluster members and all keyword pairs written by
saveOverlapMatrix are keywords of the map; and for a concrete map with a
keyword containing `|`, some returned cluster contains a string that is not a
keyword of the map. -/
theorem pipe_key_spec :
    (∀ (serp : SerpData) (minOv : Nat),
      (∀ kw ∈ serp.map Prod.fst, '|' ∉ kw) →
      (∀ c ∈ clusterKeywords serp (calculateUrlOverlap serp) minOv,
        ∀ x ∈ c, x ∈ serp.map Prod.fst) ∧
      (∀ pr ∈ saveOverlapMatrixRows (calculateUrlOverlap serp),
        pr.1 ∈ serp.map Prod.fst ∧ pr.2 ∈ serp.map Prod.fst)) ∧
    (∃ c ∈ clusterKeywords serpWithPipe (calculateUrlOverlap serpWithPipe) 3,
      ∃ x ∈ c, x ∉ serpWithPipe.map Prod.fst) := by
  constructor
  · intro serp minOv hnp
    have hshape : ∀ kv ∈ calculateUrlOverlap serp,
        (splitOnChar '|' kv.1).headD [] ∈ serp.map Prod.fst ∧
          (splitOnChar '|' kv.1).getD 1 [] ∈ serp.map Prod.fst := by
      intro kv hkv
      have hinv := overlap_foldl_inv serp _ []
        (by intro kv2 h2; exact absurd h2 (not_mem_nil kv2))
        (by intro p hp; obtain ⟨a, b⟩ := p; exact mem_combinations hp) kv hkv
      obtain ⟨-, -, -, -, kw1, kw2, h1, h2, hkey, -⟩ := hinv
      rw [hkey, splitOnChar_joinPipe (hnp kw1 h1) (hnp kw2 h2)]
      exact ⟨h1, h2⟩
    constructor
    · intro c hc x hx
      have hc2 : c ∈ (greedyLoop minOv ⟨[], []⟩
          (sortPairs (calculateUrlOverlap serp))).clusters ++
          ((serp.map Prod.fst).filter (fun k => decide
            (k ∉ (greedyLoop minOv ⟨[], []⟩
              (sortPairs (calculateUrlOverlap serp))).assigned))).map
            (fun k => [k]) := hc
      rcases mem_append.mp hc2 with hcg | hcs
      · rw [greedyLoop_eq_foldl] at hcg
        refine foldl_processPair_members
          (by intro c2 h2; exact absurd h2 (not_mem_nil c2)) ?_ c hcg x hx
        intro e he
        have hes : e ∈ sortPairs (calculateUrlOverlap serp) :=
          Sublist.mem he (takeWhile_sublist _)
        have hem : e ∈ calculateUrlOverlap serp :=
          (sortPairs_perm _).mem_iff.mp hes
        exact hshape e hem
      · rcases mem_map.mp hcs with ⟨kw, hkw, rfl⟩
        rw [mem_singleton] at hx
        subst hx
        exact (mem_filter.mp hkw).1
    · intro pr hpr
      rcases mem_map.mp hpr with ⟨kv, hkv, rfl⟩
      exact hshape kv hkv
  · decide

/-- C10 witness: the pipe-free part applied to the section-8 scenario shows a
concrete cluster member is a keyword of the map. -/
theorem pipe_key_spec_witness : kwA ∈ serpABCD.map Prod.fst :=
  (pipe_key_spec.1 serpABCD 3 (by decide)).1 [kwA, kwB, kwC] (by decide) kwA
    (by decide)
